import Mathlib

/-!
Shallow embedding of the travel-planning app's expense-settlement and
sync core, translated from the TypeScript sources:

* `safeMigrateExpenses` and the `App` component's handlers and
  local-persistence effects (App.tsx);
* the settlement computation performed by the `SettleView` component
  (balances, paid totals, greedy two-pointer transfer sweep).

JS numbers are modelled as exact rationals (`ℚ`); JS string values as
`String`.  A stored expense's `splitBy` is `Option (List String)`:
`none` stands for an absent or non-array value, `some []` for an empty
array.  Record maps (`balances`, `paidTotals`) are modelled as total
functions `String → ℚ` that default to `0`, with the JS
`!== undefined` guards rendered as membership tests against the list
of initialised keys.
-/

namespace SeoulTrip

/-- ExpenseItem from `types.ts`.  `cost` is a JS number (exact rational
here); `splitBy` is optional because legacy stored records may lack it. -/
structure ExpenseItem where
  id : String
  name : String
  cost : ℚ
  payer : String
  isShared : Bool
  splitBy : Option (List String)
deriving DecidableEq, Repr

/-- Default roster constant from `types.ts`:
`export const DEFAULT_TRIP_USERS = ['Me']`. -/
def DEFAULT_TRIP_USERS : List String := ["Me"]

/-- Body of the `items.map` in `safeMigrateExpenses` (App.tsx):
`const payer = item.payer || 'Me'` (the only falsy `String` is `""`),
then `const splitBy = Array.isArray(item.splitBy) && item.splitBy.length > 0
? item.splitBy : (item.isShared ? DEFAULT_TRIP_USERS : [payer])`,
returning `{ ...item, payer, splitBy }`. -/
def migrateExpense (item : ExpenseItem) : ExpenseItem :=
  let payer := if item.payer = "" then "Me" else item.payer
  let splitBy :=
    match item.splitBy with
    | some l => if l ≠ [] then l else if item.isShared then DEFAULT_TRIP_USERS else [payer]
    | none => if item.isShared then DEFAULT_TRIP_USERS else [payer]
  { item with payer := payer, splitBy := some splitBy }

/-- App.tsx `safeMigrateExpenses`: the `Array.isArray(items)` guard is the
caller's concern here (a non-array input maps to the empty list upstream);
on a list it is exactly `items.map(...)`. -/
def safeMigrateExpenses (items : List ExpenseItem) : List ExpenseItem :=
  items.map migrateExpense

/-! Settlement computation, from the body of `SettleView`. -/

/-- Adding one name to a JS `Set` that is later iterated in insertion
order: append if not already present. -/
def insertUnique (l : List String) (x : String) : List String :=
  if x ∈ l then l else l ++ [x]

/-- The `allParticipants.add` calls performed for one expense in
`expenses.forEach` (SettleView): `if (e.payer) allParticipants.add(e.payer)`
then, when `splitBy` is an array, `e.splitBy.forEach(u => allParticipants.add(u))`. -/
def addExpenseParticipants (acc : List String) (e : ExpenseItem) : List String :=
  let acc1 := if e.payer ≠ "" then insertUnique acc e.payer else acc
  match e.splitBy with
  | some l => l.foldl insertUnique acc1
  | none => acc1

/-- Participant universe of `SettleView`: `new Set(tripUsers)` plus every
payer and every `splitBy` member of every expense, in insertion order. -/
def allParticipants (tripUsers : List String) (expenses : List ExpenseItem) : List String :=
  expenses.foldl addExpenseParticipants (tripUsers.foldl insertUnique [])

/-- Beneficiary determination (SettleView):
`item.splitBy && item.splitBy.length > 0 ? item.splitBy
: (item.isShared ? tripUsers : [item.payer])`. -/
def beneficiariesOf (tripUsers : List String) (e : ExpenseItem) : List String :=
  match e.splitBy with
  | some l => if l ≠ [] then l else if e.isShared then tripUsers else [e.payer]
  | none => if e.isShared then tripUsers else [e.payer]

/-- The two record maps built by `SettleView`; both are initialised to `0`
on every participant and only keys in the participant list are ever
updated. -/
structure Totals where
  balances : String → ℚ
  paidTotals : String → ℚ

/-- Processing of a single expense inside `expenses.forEach(item => ...)`
(SettleView): credit `paidTotals[payer]` when that key exists; skip the
balance updates entirely when the beneficiaries are exactly `[payer]`
(a private expense); otherwise credit the payer's balance with the cost
and debit each beneficiary by `cost / beneficiaries.length`.  The
`!== undefined` guards become membership tests against `ps`, the list of
initialised keys. -/
def applyExpense (tripUsers ps : List String) (t : Totals) (e : ExpenseItem) : Totals :=
  let bens := beneficiariesOf tripUsers e
  let paid :=
    if e.payer ∈ ps then
      Function.update t.paidTotals e.payer (t.paidTotals e.payer + e.cost)
    else t.paidTotals
  if bens = [e.payer] then
    { t with paidTotals := paid }
  else
    let splitAmount := e.cost / (bens.length : ℚ)
    let bal1 :=
      if e.payer ∈ ps then
        Function.update t.balances e.payer (t.balances e.payer + e.cost)
      else t.balances
    let bal2 := bens.foldl
      (fun b x => if x ∈ ps then Function.update b x (b x - splitAmount) else b) bal1
    { balances := bal2, paidTotals := paid }

/-- Balances and paid totals of `SettleView` for a whole expense list. -/
def totalsOf (expenses : List ExpenseItem) (tripUsers : List String) : Totals :=
  expenses.foldl (applyExpense tripUsers (allParticipants tripUsers expenses))
    ⟨fun _ => 0, fun _ => 0⟩

/-- Stable insertion of one element into an already-sorted list: the new
element goes before the first element it compares `le` to, hence after
every earlier-inserted equivalent element. -/
def insertSorted (le : α → α → Bool) (x : α) : List α → List α
  | [] => [x]
  | y :: ys => if le x y then x :: y :: ys else y :: insertSorted le x ys

/-- Stable sort modelling `Array.prototype.sort` (stable per the ECMAScript
spec) with a consistent comparator: any stable sort yields the same
permutation, here realised as insertion sort. -/
def stableSortBy (le : α → α → Bool) : List α → List α
  | [] => []
  | x :: xs => insertSorted le x (stableSortBy le xs)

/-- The `debtData` array of `SettleView`: one `(name, balance)` entry per
participant, in participant order. -/
def debtDataOf (expenses : List ExpenseItem) (tripUsers : List String) : List (String × ℚ) :=
  (allParticipants tripUsers expenses).map
    (fun name => (name, (totalsOf expenses tripUsers).balances name))

/-- Debtors of `SettleView`: `d.balance < -1`, sorted ascending by balance
(`(a, b) => a.balance - b.balance`, a stable sort). -/
def debtorsOf (expenses : List ExpenseItem) (tripUsers : List String) : List (String × ℚ) :=
  stableSortBy (fun a b => decide (a.2 ≤ b.2))
    ((debtDataOf expenses tripUsers).filter (fun d => decide (d.2 < -1)))

/-- Creditors of `SettleView`: `c.balance > 1`, sorted descending by
balance (`(a, b) => b.balance - a.balance`, a stable sort). -/
def creditorsOf (expenses : List ExpenseItem) (tripUsers : List String) : List (String × ℚ) :=
  stableSortBy (fun a b => decide (b.2 ≤ a.2))
    ((debtDataOf expenses tripUsers).filter (fun c => decide (1 < c.2)))

/-- A suggested settlement transfer, as pushed by the sweep:
`{ from: debtors[i].name, to: creditors[j].name, amount: Math.round(amount) }`. -/
structure Transfer where
  from_ : String
  to_ : String
  amount : ℤ
deriving DecidableEq, Repr

/-- Variant of `Transfer` recording the unrounded amount. -/
structure TransferExact where
  from_ : String
  to_ : String
  amount : ℚ
deriving DecidableEq, Repr

/-- JS `Math.round`: round half toward positive infinity. -/
def jsRound (q : ℚ) : ℤ := ⌊q + 1 / 2⌋

/-- The greedy two-pointer `while` loop of `SettleView`.  The pointers
`i` and `j` only ever move forward, so the already-settled prefixes are
dropped from the lists and each list head carries its current working
balance (`dBalances[i]`, `cBalances[j]`).  A fuel argument bounds the
iteration count, mirroring the fact that the JS loop's termination is a
property to be proved, not a syntactic given; `suggestionsOf` supplies
`debtors.length + creditors.length`, which is proved sufficient. -/
def greedyLoop : Nat → List (String × ℚ) → List (String × ℚ) → List Transfer
  | 0, _, _ => []
  | _ + 1, [], _ => []
  | _ + 1, _ :: _, [] => []
  | fuel + 1, (dn, db) :: ds, (cn, cb) :: cs =>
    let debt := |db|
    let credit := cb
    let amount := min debt credit
    let db2 := db + amount
    let cb2 := cb - amount
    let d2 := if |db2| < 1 then ds else (dn, db2) :: ds
    let c2 := if cb2 < 1 then cs else (cn, cb2) :: cs
    (if 1 < amount then [{ from_ := dn, to_ := cn, amount := jsRound amount }] else []) ++
      greedyLoop fuel d2 c2

/-- The same sweep, recording the exact (unrounded) transferred amount.
The working balances are decremented by the identical unrounded value,
so this differs from `greedyLoop` only in what is pushed. -/
def greedyLoopExact : Nat → List (String × ℚ) → List (String × ℚ) → List TransferExact
  | 0, _, _ => []
  | _ + 1, [], _ => []
  | _ + 1, _ :: _, [] => []
  | fuel + 1, (dn, db) :: ds, (cn, cb) :: cs =>
    let debt := |db|
    let credit := cb
    let amount := min debt credit
    let db2 := db + amount
    let cb2 := cb - amount
    let d2 := if |db2| < 1 then ds else (dn, db2) :: ds
    let c2 := if cb2 < 1 then cs else (cn, cb2) :: cs
    (if 1 < amount then [{ from_ := dn, to_ := cn, amount := amount }] else []) ++
      greedyLoopExact fuel d2 c2

/-- The `suggestions` array produced by `SettleView`'s sweep. -/
def suggestionsOf (expenses : List ExpenseItem) (tripUsers : List String) : List Transfer :=
  greedyLoop ((debtorsOf expenses tripUsers).length + (creditorsOf expenses tripUsers).length)
    (debtorsOf expenses tripUsers) (creditorsOf expenses tripUsers)

/-- Unrounded-transfer variant of `suggestionsOf`. -/
def suggestionsExactOf (expenses : List ExpenseItem) (tripUsers : List String) :
    List TransferExact :=
  greedyLoopExact
    ((debtorsOf expenses tripUsers).length + (creditorsOf expenses tripUsers).length)
    (debtorsOf expenses tripUsers) (creditorsOf expenses tripUsers)

/-- The whole settlement computation of `SettleView`, bundling the derived
participant list, both record maps and the suggested transfers. -/
structure SettleResult where
  participants : List String
  balances : String → ℚ
  paidTotals : String → ℚ
  suggestions : List Transfer

/-- Contract `computeSettlement(expenses, rosterNames)` of the spec,
as implemented by `SettleView`. -/
def settle (expenses : List ExpenseItem) (tripUsers : List String) : SettleResult :=
  { participants := allParticipants tripUsers expenses
    balances := (totalsOf expenses tripUsers).balances
    paidTotals := (totalsOf expenses tripUsers).paidTotals
    suggestions := suggestionsOf expenses tripUsers }

/-- Number of derived participants whose balance lies outside the open
interval `(-1, 1)` — the participants the claim's transfer-count bound is
stated against. -/
def nontrivialCount (expenses : List ExpenseItem) (tripUsers : List String) : Nat :=
  ((allParticipants tripUsers expenses).filter
    (fun u => decide ((totalsOf expenses tripUsers).balances u ≤ -1) ||
      decide (1 ≤ (totalsOf expenses tripUsers).balances u))).length

/-- Well-formed expense record per the spec's data model: a truthy payer
and a non-empty `splitBy` array (the invariant every expense satisfies
after migration/finalisation). -/
def validExpense (e : ExpenseItem) : Bool :=
  e.payer != "" &&
    (match e.splitBy with
     | some l => !l.isEmpty
     | none => false)

/-- Sum of a rational-valued map over a list of keys. -/
def sumOver (l : List String) (f : String → ℚ) : ℚ :=
  (l.map f).sum

/-! Sync Coordinator handlers from `App.tsx`. -/

/-- Remote-store operations the `App` handlers can issue (the `sync*`
functions of `services/firebase.ts`, recorded abstractly). -/
inductive RemoteOp
  | addUser (name : String)
  | removeUser (name : String)
  | addExpense (item : ExpenseItem)
  | deleteExpense (id : String)
deriving DecidableEq, Repr

/-- The two actions of `handleExpensesChange`. -/
inductive ExpenseAction
  | add
  | delete
deriving DecidableEq, Repr

/-- Result of one expense mutation: the new in-memory list and the remote
operations issued. -/
structure ExpenseChangeResult where
  expenses : List ExpenseItem
  remoteOps : List RemoteOp
deriving Repr

/-- JS `String.prototype.trim`: strip whitespace from both ends. -/
def jsTrim (s : String) : String :=
  ⟨((s.data.dropWhile Char.isWhitespace).reverse.dropWhile Char.isWhitespace).reverse⟩

/-- The `finalizedItem` construction at the top of `handleExpensesChange`:
`splitBy: item.splitBy && item.splitBy.length > 0 ? item.splitBy
: (item.isShared ? tripUsers : [item.payer])` — the same conditional as
`beneficiariesOf`, against the live roster. -/
def finalizeExpense (tripUsers : List String) (item : ExpenseItem) : ExpenseItem :=
  { item with splitBy := some (beneficiariesOf tripUsers item) }

/-- App.tsx `handleExpensesChange`: optimistic local update first
(delete filters by id; add is skipped when an expense with the same id is
already present), then a remote push only when cloud-connected. -/
def handleExpensesChange (isCloudConnected : Bool) (tripUsers : List String)
    (prev : List ExpenseItem) (action : ExpenseAction) (item : ExpenseItem) :
    ExpenseChangeResult :=
  let finalizedItem := finalizeExpense tripUsers item
  let expenses :=
    match action with
    | .delete => prev.filter (fun e => e.id != finalizedItem.id)
    | .add =>
      if prev.any (fun e => e.id == finalizedItem.id) then prev
      else prev ++ [finalizedItem]
  let remoteOps :=
    if isCloudConnected then
      match action with
      | .delete => [RemoteOp.deleteExpense finalizedItem.id]
      | .add => [RemoteOp.addExpense finalizedItem]
    else []
  ⟨expenses, remoteOps⟩

/-- Result of one roster mutation. -/
structure RosterChangeResult where
  tripUsers : List String
  remoteOps : List RemoteOp
deriving DecidableEq, Repr

/-- App.tsx `handleAddTripUser`: `if (!name.trim()) return;` then either a
remote `syncAddUser` or a local duplicate-checked append. -/
def handleAddTripUser (isCloudConnected : Bool) (tripUsers : List String)
    (name : String) : RosterChangeResult :=
  if jsTrim name = "" then ⟨tripUsers, []⟩
  else if isCloudConnected then ⟨tripUsers, [RemoteOp.addUser name]⟩
  else if name ∈ tripUsers then ⟨tripUsers, []⟩
  else ⟨tripUsers ++ [name], []⟩

/-- App.tsx `handleRemoveTripUser`: no name validation; either a remote
`syncRemoveUser` or a local filter by name. -/
def handleRemoveTripUser (isCloudConnected : Bool) (tripUsers : List String)
    (name : String) : RosterChangeResult :=
  if isCloudConnected then ⟨tripUsers, [RemoteOp.removeUser name]⟩
  else ⟨tripUsers.filter (fun u => u != name), []⟩

/-- One of the three guarded local-persistence effects of `App`
(`useEffect` over itinerary, expenses and roster):
`if (!isCloudConnected && coll.length > 0) localStorage.setItem(key, ...)`.
The return value is the collection written to local persistence, if any;
these effects are the only writers of the three collection keys. -/
def persistCollection {α : Type} (isCloudConnected : Bool) (coll : List α) :
    Option (List α) :=
  if !isCloudConnected && decide (0 < coll.length) then some coll else none

/-! Concrete example inputs used by scenario conjuncts, witnesses and
counterexamples. -/

/-- Two shared expenses over the four-person roster `exRoster`:
`C` pays 60 split among `A, B, C`; `D` pays 20 split among `A, B`.
Resulting balances: `A: -30, B: -30, C: +40, D: +20`. -/
def exExpenses : List ExpenseItem :=
  [⟨"e1", "lunch", 60, "C", false, some ["A", "B", "C"]⟩,
   ⟨"e2", "cafe", 20, "D", false, some ["A", "B"]⟩]

/-- Roster for `exExpenses`. -/
def exRoster : List String := ["A", "B", "C", "D"]

/-- The private expense of the claim's concrete scenario:
`{cost: 100, payer: Alice, splitBy: [Alice]}`. -/
def privateExpense : ExpenseItem := ⟨"s1", "gift", 100, "Alice", false, some ["Alice"]⟩

/-! Lemmas about the participant universe. -/

/-- Occurrence of a name in one expense, exactly as `SettleView` collects
it: as a truthy payer, or as a member of an array-valued `splitBy`. -/
def appearsInExpense (x : String) (e : ExpenseItem) : Prop :=
  (e.payer = x ∧ x ≠ "") ∨ x ∈ e.splitBy.getD []

lemma mem_insertUnique {l : List String} {x y : String} :
    y ∈ insertUnique l x ↔ y ∈ l ∨ y = x := by
  by_cases h : x ∈ l
  · simp only [insertUnique, if_pos h]
    constructor
    · exact Or.inl
    · rintro (hy | rfl)
      · exact hy
      · exact h
  · simp [insertUnique, if_neg h]

lemma nodup_insertUnique {l : List String} (x : String) (h : l.Nodup) :
    (insertUnique l x).Nodup := by
  by_cases hx : x ∈ l
  · simpa [insertUnique, if_pos hx]
  · simpa [insertUnique, if_neg hx, List.nodup_append] using ⟨h, fun hc => hx hc⟩

lemma mem_foldl_insertUnique (l : List String) (acc : List String) (y : String) :
    y ∈ l.foldl insertUnique acc ↔ y ∈ acc ∨ y ∈ l := by
  induction l generalizing acc with
  | nil => simp
  | cons a t ih =>
    rw [List.foldl_cons, ih, mem_insertUnique]
    constructor
    · rintro ((hy | rfl) | hy)
      · exact Or.inl hy
      · exact Or.inr (List.mem_cons_self _ _)
      · exact Or.inr (List.mem_cons_of_mem _ hy)
    · rintro (hy | hy)
      · exact Or.inl (Or.inl hy)
      · rcases List.mem_cons.mp hy with rfl | hy
        · exact Or.inl (Or.inr rfl)
        · exact Or.inr hy

lemma nodup_foldl_insertUnique (l : List String) (acc : List String) (h : acc.Nodup) :
    (l.foldl insertUnique acc).Nodup := by
  induction l generalizing acc with
  | nil => simpa
  | cons a t ih => exact ih _ (nodup_insertUnique a h)

lemma mem_addExpenseParticipants {acc : List String} {e : ExpenseItem} {y : String} :
    y ∈ addExpenseParticipants acc e ↔ y ∈ acc ∨ appearsInExpense y e := by
  unfold addExpenseParticipants appearsInExpense
  rcases hs : e.splitBy with _ | l
  · simp only [Option.getD_none, List.not_mem_nil, or_false]
    by_cases hp : e.payer ≠ ""
    · simp only [if_pos hp, mem_insertUnique]
      constructor
      · rintro (hy | rfl)
        · exact Or.inl hy
        · exact Or.inr ⟨rfl, hp⟩
      · rintro (hy | ⟨rfl, _⟩)
        · exact Or.inl hy
        · exact Or.inr rfl
    · simp only [if_neg hp, ne_eq, Decidable.not_not] at *
      constructor
      · exact Or.inl
      · rintro (hy | ⟨rfl, hne⟩)
        · exact hy
        · exact absurd hp hne
  · rw [mem_foldl_insertUnique]
    simp only [Option.getD_some]
    by_cases hp : e.payer ≠ ""
    · rw [if_pos hp, mem_insertUnique]
      constructor
      · rintro ((hy | rfl) | hy)
        · exact Or.inl hy
        · exact Or.inr (Or.inl ⟨rfl, hp⟩)
        · exact Or.inr (Or.inr hy)
      · rintro (hy | (⟨rfl, _⟩ | hy))
        · exact Or.inl (Or.inl hy)
        · exact Or.inl (Or.inr rfl)
        · exact Or.inr hy
    · rw [if_neg hp]
      simp only [ne_eq, Decidable.not_not] at hp
      constructor
      · rintro (hy | hy)
        · exact Or.inl hy
        · exact Or.inr (Or.inr hy)
      · rintro (hy | (⟨rfl, hne⟩ | hy))
        · exact Or.inl hy
        · exact absurd hp hne
        · exact Or.inr hy

lemma nodup_addExpenseParticipants {acc : List String} (e : ExpenseItem)
    (h : acc.Nodup) : (addExpenseParticipants acc e).Nodup := by
  unfold addExpenseParticipants
  rcases e.splitBy with _ | l
  · by_cases hp : e.payer ≠ ""
    · simpa [if_pos hp] using nodup_insertUnique _ h
    · simpa [if_neg hp]
  · by_cases hp : e.payer ≠ ""
    · simp only [if_pos hp]
      exact nodup_foldl_insertUnique _ _ (nodup_insertUnique _ h)
    · simp only [if_neg hp]
      exact nodup_foldl_insertUnique _ _ h

lemma mem_foldl_addExpenseParticipants (l : List ExpenseItem) (acc : List String)
    (y : String) :
    y ∈ l.foldl addExpenseParticipants acc ↔ y ∈ acc ∨ ∃ e ∈ l, appearsInExpense y e := by
  induction l generalizing acc with
  | nil => simp
  | cons a t ih =>
    rw [List.foldl_cons, ih, mem_addExpenseParticipants]
    constructor
    · rintro ((hy | hae) | ⟨e, he, hae⟩)
      · exact Or.inl hy
      · exact Or.inr ⟨a, List.mem_cons_self _ _, hae⟩
      · exact Or.inr ⟨e, List.mem_cons_of_mem _ he, hae⟩
    · rintro (hy | ⟨e, he, hae⟩)
      · exact Or.inl (Or.inl hy)
      · rcases List.mem_cons.mp he with rfl | he
        · exact Or.inl (Or.inr hae)
        · exact Or.inr ⟨e, he, hae⟩

lemma mem_allParticipants {us : List String} {es : List ExpenseItem} {y : String} :
    y ∈ allParticipants us es ↔ y ∈ us ∨ ∃ e ∈ es, appearsInExpense y e := by
  unfold allParticipants
  rw [mem_foldl_addExpenseParticipants, mem_foldl_insertUnique]
  simp

lemma nodup_allParticipants (us : List String) (es : List ExpenseItem) :
    (allParticipants us es).Nodup := by
  unfold allParticipants
  have key : ∀ (l : List ExpenseItem) (acc : List String), acc.Nodup →
      (l.foldl addExpenseParticipants acc).Nodup := by
    intro l
    induction l with
    | nil => intro acc h; simpa
    | cons a t ih =>
      intro acc h
      exact ih _ (nodup_addExpenseParticipants a h)
  exact key es _ (nodup_foldl_insertUnique us [] List.nodup_nil)

/-! Lemmas about sums of the settlement record maps. -/

lemma sumOver_zero (l : List String) : sumOver l (fun _ => (0 : ℚ)) = 0 := by
  induction l with
  | nil => rfl
  | cons a t ih => simp [sumOver, List.map_cons, ih]

lemma map_update_of_forall_ne {l : List String} {k : String} (h : ∀ x ∈ l, x ≠ k)
    (f : String → ℚ) (v : ℚ) : l.map (Function.update f k v) = l.map f :=
  List.map_congr_left (fun x hx => Function.update_noteq (h x hx) v f)

lemma sumOver_update {ps : List String} (hnd : ps.Nodup) {k : String} (hk : k ∈ ps)
    (f : String → ℚ) (v : ℚ) :
    sumOver ps (Function.update f k v) = sumOver ps f - f k + v := by
  induction ps with
  | nil => cases hk
  | cons a t ih =>
    rcases List.mem_cons.mp hk with rfl | hkt
    · have hnotin : ∀ x ∈ t, x ≠ k := by
        intro x hx
        rintro rfl
        exact (List.nodup_cons.mp hnd).1 hx
      simp only [sumOver, List.map_cons, List.sum_cons, Function.update_same,
        map_update_of_forall_ne hnotin]
      ring
    · have hak : a ≠ k := by
        rintro rfl
        exact (List.nodup_cons.mp hnd).1 hkt
      have ht := ih (List.nodup_cons.mp hnd).2 hkt
      simp only [sumOver, List.map_cons, List.sum_cons, Function.update_noteq hak] at *
      rw [ht]
      ring

lemma sumOver_debit_fold {ps : List String} (hnd : ps.Nodup) (s : ℚ)
    (bens : List String) :
    ∀ (bal : String → ℚ), (∀ b ∈ bens, b ∈ ps) →
      sumOver ps
          (bens.foldl (fun b x => if x ∈ ps then Function.update b x (b x - s) else b) bal)
        = sumOver ps bal - bens.length * s := by
  induction bens with
  | nil => intro bal _; simp
  | cons b bt ih =>
    intro bal hb
    have hbps : b ∈ ps := hb b (List.mem_cons_self _ _)
    rw [List.foldl_cons, if_pos hbps,
      ih _ (fun x hx => hb x (List.mem_cons_of_mem _ hx)), sumOver_update hnd hbps,
      List.length_cons]
    push_cast
    ring

lemma sumOver_applyExpense_paidTotals {us ps : List String} (hnd : ps.Nodup)
    {e : ExpenseItem} (hp : e.payer ∈ ps) (t : Totals) :
    sumOver ps (applyExpense us ps t e).paidTotals = sumOver ps t.paidTotals + e.cost := by
  by_cases hpriv : beneficiariesOf us e = [e.payer]
  · simp only [applyExpense, if_pos hpriv, if_pos hp]
    rw [sumOver_update hnd hp]
    ring
  · simp only [applyExpense, if_neg hpriv, if_pos hp]
    rw [sumOver_update hnd hp]
    ring

lemma sumOver_applyExpense_balances {us ps : List String} (hnd : ps.Nodup)
    {e : ExpenseItem} (hp : e.payer ∈ ps)
    (hb : ∀ b ∈ beneficiariesOf us e, b ∈ ps)
    (hne : beneficiariesOf us e ≠ []) (t : Totals) :
    sumOver ps (applyExpense us ps t e).balances = sumOver ps t.balances := by
  by_cases hpriv : beneficiariesOf us e = [e.payer]
  · simp [applyExpense, if_pos hpriv]
  · simp only [applyExpense, if_neg hpriv, if_pos hp]
    rw [sumOver_debit_fold hnd _ _ _ hb, sumOver_update hnd hp]
    have hlen : ((beneficiariesOf us e).length : ℚ) ≠ 0 :=
      Nat.cast_ne_zero.mpr (fun h0 => hne (List.length_eq_zero.mp h0))
    have hcancel : ((beneficiariesOf us e).length : ℚ) * (e.cost / (beneficiariesOf us e).length)
        = e.cost := by
      rw [mul_comm, div_mul_cancel₀ _ hlen]
    rw [hcancel]
    ring

lemma sumOver_totals_foldl {us ps : List String} (hnd : ps.Nodup)
    (es : List ExpenseItem)
    (hes : ∀ e ∈ es, e.payer ∈ ps ∧ (∀ b ∈ beneficiariesOf us e, b ∈ ps) ∧
      beneficiariesOf us e ≠ []) :
    ∀ t : Totals,
      sumOver ps (es.foldl (applyExpense us ps) t).paidTotals
          = sumOver ps t.paidTotals + (es.map (fun e => e.cost)).sum ∧
        sumOver ps (es.foldl (applyExpense us ps) t).balances = sumOver ps t.balances := by
  induction es with
  | nil => intro t; simp
  | cons a l ih =>
    intro t
    have ha := hes a (List.mem_cons_self _ _)
    have hl : ∀ e ∈ l, e.payer ∈ ps ∧ (∀ b ∈ beneficiariesOf us e, b ∈ ps) ∧
        beneficiariesOf us e ≠ [] :=
      fun e he => hes e (List.mem_cons_of_mem _ he)
    rw [List.foldl_cons]
    obtain ⟨ihp, ihb⟩ := ih hl (applyExpense us ps t a)
    constructor
    · rw [ihp, sumOver_applyExpense_paidTotals hnd ha.1, List.map_cons, List.sum_cons]
      ring
    · rw [ihb, sumOver_applyExpense_balances hnd ha.1 ha.2.1 ha.2.2]

/-! Well-formedness facts. -/

lemma valid_payer_ne {e : ExpenseItem} (h : validExpense e = true) : e.payer ≠ "" := by
  simp only [validExpense, Bool.and_eq_true, bne_iff_ne, ne_eq] at h
  exact h.1

lemma valid_splitBy {e : ExpenseItem} (h : validExpense e = true) :
    ∃ l, e.splitBy = some l ∧ l ≠ [] := by
  simp only [validExpense, Bool.and_eq_true] at h
  rcases hs : e.splitBy with _ | l
  · rw [hs] at h; simp at h
  · rw [hs] at h
    refine ⟨l, rfl, ?_⟩
    rintro rfl
    simp at h

lemma beneficiariesOf_of_valid {e : ExpenseItem} (h : validExpense e = true)
    (us : List String) : beneficiariesOf us e = e.splitBy.getD [] := by
  obtain ⟨l, hs, hl⟩ := valid_splitBy h
  simp [beneficiariesOf, hs, hl]

lemma valid_mem_facts {us : List String} {es : List ExpenseItem}
    (h : ∀ e ∈ es, validExpense e = true) :
    ∀ e ∈ es, e.payer ∈ allParticipants us es ∧
      (∀ b ∈ beneficiariesOf us e, b ∈ allParticipants us es) ∧
      beneficiariesOf us e ≠ [] := by
  intro e he
  have hv := h e he
  obtain ⟨l, hs, hl⟩ := valid_splitBy hv
  refine ⟨?_, ?_, ?_⟩
  · exact mem_allParticipants.mpr (Or.inr ⟨e, he, Or.inl ⟨rfl, valid_payer_ne hv⟩⟩)
  · intro b hb
    rw [beneficiariesOf_of_valid hv] at hb
    exact mem_allParticipants.mpr (Or.inr ⟨e, he, Or.inr hb⟩)
  · rw [beneficiariesOf_of_valid hv, hs]
    simpa using hl

/-! Congruence lemmas: the settlement maps only consult the participant
list through membership guards, so replacing it by a membership-equivalent
list (and the roster by any roster, for well-formed expenses) leaves the
computed maps unchanged. -/

lemma debitFold_congr {ps ps' : List String} (s : ℚ) (l : List String)
    (hl : ∀ x ∈ l, (x ∈ ps ↔ x ∈ ps')) :
    ∀ b : String → ℚ,
      l.foldl (fun b x => if x ∈ ps then Function.update b x (b x - s) else b) b =
      l.foldl (fun b x => if x ∈ ps' then Function.update b x (b x - s) else b) b := by
  induction l with
  | nil => intro b; rfl
  | cons a tl ih =>
    intro b
    have ha := hl a (List.mem_cons_self _ _)
    simp only [List.foldl_cons]
    have hstep : (if a ∈ ps then Function.update b a (b a - s) else b) =
        (if a ∈ ps' then Function.update b a (b a - s) else b) := by
      by_cases h : a ∈ ps
      · rw [if_pos h, if_pos (ha.mp h)]
      · rw [if_neg h, if_neg (fun hc => h (ha.mpr hc))]
    rw [hstep]
    exact ih (fun x hx => hl x (List.mem_cons_of_mem _ hx)) _

lemma applyExpense_congr {us us' ps ps' : List String} {e : ExpenseItem}
    (hval : validExpense e = true)
    (hp : e.payer ∈ ps ↔ e.payer ∈ ps')
    (hb : ∀ b ∈ e.splitBy.getD [], (b ∈ ps ↔ b ∈ ps')) (t : Totals) :
    applyExpense us ps t e = applyExpense us' ps' t e := by
  have hbe := beneficiariesOf_of_valid hval us
  have hbe' := beneficiariesOf_of_valid hval us'
  have hpaid : (if e.payer ∈ ps then
        Function.update t.paidTotals e.payer (t.paidTotals e.payer + e.cost)
      else t.paidTotals) =
      (if e.payer ∈ ps' then
        Function.update t.paidTotals e.payer (t.paidTotals e.payer + e.cost)
      else t.paidTotals) := by
    by_cases h : e.payer ∈ ps
    · rw [if_pos h, if_pos (hp.mp h)]
    · rw [if_neg h, if_neg (fun hc => h (hp.mpr hc))]
  have hbal1 : (if e.payer ∈ ps then
        Function.update t.balances e.payer (t.balances e.payer + e.cost)
      else t.balances) =
      (if e.payer ∈ ps' then
        Function.update t.balances e.payer (t.balances e.payer + e.cost)
      else t.balances) := by
    by_cases h : e.payer ∈ ps
    · rw [if_pos h, if_pos (hp.mp h)]
    · rw [if_neg h, if_neg (fun hc => h (hp.mpr hc))]
  simp only [applyExpense, hbe, hbe']
  by_cases hpriv : e.splitBy.getD [] = [e.payer]
  · rw [if_pos hpriv, if_pos hpriv, hpaid]
  · rw [if_neg hpriv, if_neg hpriv, hpaid, hbal1,
      debitFold_congr (e.cost / ((e.splitBy.getD []).length : ℚ)) _ hb]

lemma totalsFold_congr {us us' ps ps' : List String} (es : List ExpenseItem)
    (h : ∀ e ∈ es, validExpense e = true ∧ (e.payer ∈ ps ↔ e.payer ∈ ps') ∧
      ∀ b ∈ e.splitBy.getD [], (b ∈ ps ↔ b ∈ ps')) :
    ∀ t : Totals, es.foldl (applyExpense us ps) t = es.foldl (applyExpense us' ps') t := by
  induction es with
  | nil => intro t; rfl
  | cons a l ih =>
    intro t
    obtain ⟨hval, hp, hb⟩ := h a (List.mem_cons_self _ _)
    rw [List.foldl_cons, List.foldl_cons, applyExpense_congr hval hp hb]
    exact ih (fun e he => h e (List.mem_cons_of_mem _ he)) _

lemma debitFold_value_of_not_mem {ps : List String} (s : ℚ) (l : List String)
    {x : String} (hx : x ∉ ps) :
    ∀ b : String → ℚ,
      (l.foldl (fun b y => if y ∈ ps then Function.update b y (b y - s) else b) b) x = b x := by
  induction l with
  | nil => intro b; rfl
  | cons a tl ih =>
    intro b
    rw [List.foldl_cons, ih]
    by_cases h : a ∈ ps
    · rw [if_pos h, Function.update_noteq (fun heq => hx (by rw [heq]; exact h))]
    · rw [if_neg h]

/-- A key outside the participant list is never touched: its balance stays
at the initial value throughout the fold. -/
lemma totalsFold_balances_of_not_mem {us ps : List String} (es : List ExpenseItem)
    {x : String} (hx : x ∉ ps) :
    ∀ t : Totals, (es.foldl (applyExpense us ps) t).balances x = t.balances x := by
  induction es with
  | nil => intro t; rfl
  | cons a l ih =>
    intro t
    rw [List.foldl_cons, ih]
    simp only [applyExpense]
    by_cases hpriv : beneficiariesOf us a = [a.payer]
    · rw [if_pos hpriv]
    · rw [if_neg hpriv]
      dsimp only
      rw [debitFold_value_of_not_mem _ _ hx]
      by_cases h : a.payer ∈ ps
      · rw [if_pos h, Function.update_noteq (fun heq => hx (by rw [heq]; exact h))]
      · rw [if_neg h]

/-! Appending a private expense. -/

lemma allParticipants_append_one (us : List String) (es : List ExpenseItem)
    (p : ExpenseItem) :
    allParticipants us (es ++ [p]) = addExpenseParticipants (allParticipants us es) p := by
  unfold allParticipants
  rw [List.foldl_append]
  rfl

lemma insertUnique_of_mem {l : List String} {x : String} (h : x ∈ l) :
    insertUnique l x = l := by
  simp [insertUnique, h]

lemma insertUnique_of_not_mem {l : List String} {x : String} (h : x ∉ l) :
    insertUnique l x = l ++ [x] := by
  simp [insertUnique, h]

lemma addExpenseParticipants_private (acc : List String) {p : ExpenseItem}
    (hsp : p.splitBy = some [p.payer]) (hpp : p.payer ≠ "") :
    addExpenseParticipants acc p = insertUnique acc p.payer := by
  unfold addExpenseParticipants
  rw [hsp, if_pos hpp]
  simp only [List.foldl_cons, List.foldl_nil]
  exact insertUnique_of_mem (mem_insertUnique.mpr (Or.inr rfl))

/-- Appending a private expense (`splitBy == [payer]`, truthy payer) to a
list of well-formed expenses credits the payer's paid total by its cost
and changes nothing else: not the balances map, not the other paid
totals, not the suggested transfers. -/
lemma settle_append_private (es : List ExpenseItem) (us : List String)
    (p : ExpenseItem) (hval : ∀ e ∈ es, validExpense e = true)
    (hsp : p.splitBy = some [p.payer]) (hpp : p.payer ≠ "") :
    (settle (es ++ [p]) us).paidTotals p.payer
        = (settle es us).paidTotals p.payer + p.cost ∧
      (∀ x, x ≠ p.payer →
        (settle (es ++ [p]) us).paidTotals x = (settle es us).paidTotals x) ∧
      (settle (es ++ [p]) us).balances = (settle es us).balances ∧
      (settle (es ++ [p]) us).suggestions = (settle es us).suggestions := by
  have hps' : allParticipants us (es ++ [p])
      = insertUnique (allParticipants us es) p.payer := by
    rw [allParticipants_append_one, addExpenseParticipants_private _ hsp hpp]
  have hsubset : ∀ x, x ∈ allParticipants us es →
      x ∈ insertUnique (allParticipants us es) p.payer :=
    fun x hx => mem_insertUnique.mpr (Or.inl hx)
  have hcong : es.foldl (applyExpense us (allParticipants us es))
        ⟨fun _ => 0, fun _ => 0⟩
      = es.foldl (applyExpense us (insertUnique (allParticipants us es) p.payer))
        ⟨fun _ => 0, fun _ => 0⟩ := by
    apply totalsFold_congr es
    intro e he
    obtain ⟨hpmem, hbmem, _⟩ := valid_mem_facts hval e he
    refine ⟨hval e he, ⟨fun _ => hsubset _ hpmem, fun _ => hpmem⟩, ?_⟩
    intro b hb
    have hbmem2 : b ∈ allParticipants us es := by
      apply hbmem
      rw [beneficiariesOf_of_valid (hval e he)]
      exact hb
    exact ⟨fun _ => hsubset _ hbmem2, fun _ => hbmem2⟩
  have hkey : totalsOf (es ++ [p]) us
      = applyExpense us (allParticipants us (es ++ [p])) (totalsOf es us) p := by
    unfold totalsOf
    rw [List.foldl_append]
    simp only [List.foldl_cons, List.foldl_nil]
    congr 1
    rw [hps', ← hcong]
  have hpriv : beneficiariesOf us p = [p.payer] := by
    simp [beneficiariesOf, hsp]
  have hmem' : p.payer ∈ allParticipants us (es ++ [p]) := by
    rw [hps']
    exact mem_insertUnique.mpr (Or.inr rfl)
  have happly : applyExpense us (allParticipants us (es ++ [p])) (totalsOf es us) p
      = { totalsOf es us with
          paidTotals := Function.update (totalsOf es us).paidTotals p.payer
            ((totalsOf es us).paidTotals p.payer + p.cost) } := by
    simp only [applyExpense, hpriv, if_pos rfl, if_pos hmem', if_true]
  have hbal_eq : (totalsOf (es ++ [p]) us).balances = (totalsOf es us).balances := by
    rw [hkey, happly]
  refine ⟨?_, ?_, ?_, ?_⟩
  · show (totalsOf (es ++ [p]) us).paidTotals p.payer = _
    rw [hkey, happly]
    exact Function.update_same _ _ _
  · intro x hx
    show (totalsOf (es ++ [p]) us).paidTotals x = (totalsOf es us).paidTotals x
    rw [hkey, happly]
    exact Function.update_noteq hx _ _
  · exact hbal_eq
  · show suggestionsOf (es ++ [p]) us = suggestionsOf es us
    by_cases hmemps : p.payer ∈ allParticipants us es
    · have hsame : allParticipants us (es ++ [p]) = allParticipants us es := by
        rw [hps', insertUnique_of_mem hmemps]
      have hdd : debtDataOf (es ++ [p]) us = debtDataOf es us := by
        unfold debtDataOf
        rw [hsame, hbal_eq]
      unfold suggestionsOf debtorsOf creditorsOf
      rw [hdd]
    · have happ : allParticipants us (es ++ [p]) = allParticipants us es ++ [p.payer] := by
        rw [hps', insertUnique_of_not_mem hmemps]
      have hzero : (totalsOf es us).balances p.payer = 0 := by
        show (es.foldl (applyExpense us (allParticipants us es))
          ⟨fun _ => 0, fun _ => 0⟩).balances p.payer = 0
        rw [totalsFold_balances_of_not_mem es hmemps]
      have hdd : debtDataOf (es ++ [p]) us = debtDataOf es us ++ [(p.payer, 0)] := by
        unfold debtDataOf
        rw [happ, hbal_eq, List.map_append, List.map_cons, List.map_nil, hzero]
      have hfd : (debtDataOf es us ++ [(p.payer, (0 : ℚ))]).filter
            (fun d => decide (d.2 < -1))
          = (debtDataOf es us).filter (fun d => decide (d.2 < -1)) := by
        rw [List.filter_append]
        norm_num [List.filter_cons]
      have hfc : (debtDataOf es us ++ [(p.payer, (0 : ℚ))]).filter
            (fun c => decide (1 < c.2))
          = (debtDataOf es us).filter (fun c => decide (1 < c.2)) := by
        rw [List.filter_append]
        norm_num [List.filter_cons]
      unfold suggestionsOf debtorsOf creditorsOf
      rw [hdd, hfd, hfc]

/-! Claim theorem C1. -/

/-- Claim C1: for every expense list of well-formed records and every
roster, the settlement satisfies balance conservation — the paid totals
summed over all derived participants equal the sum of all expense costs,
and the balances summed over all derived participants equal zero
(exactly, in the exact-rational model of JS numbers). -/
theorem claim_C1_balance_conservation (es : List ExpenseItem) (us : List String)
    (h : ∀ e ∈ es, validExpense e = true) :
    sumOver (settle es us).participants (settle es us).paidTotals =
        (es.map (fun e => e.cost)).sum ∧
      sumOver (settle es us).participants (settle es us).balances = 0 := by
  have hnd := nodup_allParticipants us es
  obtain ⟨hp, hb⟩ :=
    sumOver_totals_foldl hnd es (valid_mem_facts h) ⟨fun _ => 0, fun _ => 0⟩
  constructor
  · show sumOver (allParticipants us es) (totalsOf es us).paidTotals = _
    rw [totalsOf, hp, sumOver_zero, zero_add]
  · show sumOver (allParticipants us es) (totalsOf es us).balances = 0
    rw [totalsOf, hb, sumOver_zero]

/-- Witness for C1: one shared 90-unit expense among three participants. -/
theorem claim_C1_balance_conservation_witness :
    (∀ e ∈ [(⟨"1", "bbq", 90, "A", false, some ["A", "B", "C"]⟩ : ExpenseItem)],
      validExpense e = true) ∧
    (sumOver (settle [⟨"1", "bbq", 90, "A", false, some ["A", "B", "C"]⟩] ["A", "B", "C"]).participants
        (settle [⟨"1", "bbq", 90, "A", false, some ["A", "B", "C"]⟩] ["A", "B", "C"]).paidTotals =
      ([(⟨"1", "bbq", 90, "A", false, some ["A", "B", "C"]⟩ : ExpenseItem)].map
        (fun e => e.cost)).sum ∧
    sumOver (settle [⟨"1", "bbq", 90, "A", false, some ["A", "B", "C"]⟩] ["A", "B", "C"]).participants
        (settle [⟨"1", "bbq", 90, "A", false, some ["A", "B", "C"]⟩] ["A", "B", "C"]).balances = 0) :=
  ⟨by decide, claim_C1_balance_conservation _ _ (by decide)⟩

/-! Lemmas about the legacy-expense migration. -/

/-- Migration is the identity on every well-formed expense record. -/
lemma migrateExpense_of_valid (item : ExpenseItem) (h : validExpense item = true) :
    migrateExpense item = item := by
  simp only [validExpense, Bool.and_eq_true, bne_iff_ne, ne_eq] at h
  obtain ⟨h1, h2⟩ := h
  rcases hs : item.splitBy with _ | l
  · rw [hs] at h2; simp at h2
  · rw [hs] at h2
    simp only [Bool.not_eq_true'] at h2
    have hl : l ≠ [] := by
      intro hnil; rw [hnil] at h2; simp at h2
    simp only [migrateExpense, hs, if_neg h1, if_pos hl]
    rw [← hs]

/-- The output of migration is always a well-formed expense record. -/
lemma validExpense_migrateExpense (item : ExpenseItem) :
    validExpense (migrateExpense item) = true := by
  simp only [migrateExpense, validExpense, Bool.and_eq_true, bne_iff_ne, ne_eq]
  constructor
  · by_cases hp : item.payer = "" <;> simp [hp]
  · rcases item.splitBy with _ | l
    · by_cases hs : item.isShared <;> simp [hs, DEFAULT_TRIP_USERS]
    · by_cases hl : l = []
      · subst hl
        by_cases hs : item.isShared <;> simp [hs, DEFAULT_TRIP_USERS]
      · simp [hl]

/-! Claim theorems about migration (C2, C6). -/

/-! Removing a roster name that still appears in expenses. -/

lemma mem_allParticipants_filter {us : List String} {es : List ExpenseItem} {n x : String}
    (happ : ∃ e ∈ es, appearsInExpense n e) :
    x ∈ allParticipants (us.filter (fun u => u != n)) es ↔ x ∈ allParticipants us es := by
  rw [mem_allParticipants, mem_allParticipants]
  constructor
  · rintro (hx | hx)
    · exact Or.inl (List.mem_filter.mp hx).1
    · exact Or.inr hx
  · rintro (hx | hx)
    · by_cases hxn : x = n
      · subst hxn
        exact Or.inr happ
      · exact Or.inl (List.mem_filter.mpr ⟨hx, by simp [hxn]⟩)
    · exact Or.inr hx

/-- Claim C3, amended: removing from the roster a name that appears in
some expense (as payer or beneficiary) changes neither the derived
participant universe (as a set), nor any participant's balance, nor any
paid total — the name still participates in settlement.  The transfer
*list* itself is however not always identical: the participant universe's
iteration order changes, and the stable sorts break balance ties by that
order (see the counterexample). -/
theorem claim_C3_ghost_participant_inclusion (es : List ExpenseItem) (us : List String)
    (n : String) (hval : ∀ e ∈ es, validExpense e = true)
    (happ : ∃ e ∈ es, e.payer = n ∨ n ∈ e.splitBy.getD []) :
    (∀ x, x ∈ (settle es (us.filter (fun u => u != n))).participants ↔
      x ∈ (settle es us).participants) ∧
    n ∈ (settle es (us.filter (fun u => u != n))).participants ∧
    (settle es (us.filter (fun u => u != n))).balances = (settle es us).balances ∧
    (settle es (us.filter (fun u => u != n))).paidTotals = (settle es us).paidTotals := by
  have happ2 : ∃ e ∈ es, appearsInExpense n e := by
    obtain ⟨e, he, hcase⟩ := happ
    rcases hcase with hcase | hcase
    · exact ⟨e, he, Or.inl ⟨hcase, hcase ▸ valid_payer_ne (hval e he)⟩⟩
    · exact ⟨e, he, Or.inr hcase⟩
  have hiff : ∀ x, x ∈ allParticipants (us.filter (fun u => u != n)) es ↔
      x ∈ allParticipants us es :=
    fun x => mem_allParticipants_filter happ2
  have ht : totalsOf es (us.filter (fun u => u != n)) = totalsOf es us := by
    unfold totalsOf
    apply totalsFold_congr
    intro e he
    exact ⟨hval e he, hiff _, fun b _ => hiff b⟩
  refine ⟨hiff, ?_, ?_, ?_⟩
  · show n ∈ allParticipants (us.filter (fun u => u != n)) es
    exact (hiff n).mpr (mem_allParticipants.mpr (Or.inr happ2))
  · show (totalsOf es (us.filter (fun u => u != n))).balances = (totalsOf es us).balances
    rw [ht]
  · show (totalsOf es (us.filter (fun u => u != n))).paidTotals = (totalsOf es us).paidTotals
    rw [ht]

/-- One unfolding step of the sweep, for rewriting in concrete runs. -/
lemma greedyLoop_cons_cons (f : Nat) (dn cn : String) (db cb : ℚ)
    (ds cs : List (String × ℚ)) :
    greedyLoop (f + 1) ((dn, db) :: ds) ((cn, cb) :: cs) =
      (if 1 < min |db| cb then
        [{ from_ := dn, to_ := cn, amount := jsRound (min |db| cb) }]
      else []) ++
        greedyLoop f
          (if |db + min |db| cb| < 1 then ds else (dn, db + min |db| cb) :: ds)
          (if cb - min |db| cb < 1 then cs else (cn, cb - min |db| cb) :: cs) := rfl

/-! Concrete evaluation of `exExpenses` over the two rosters. -/

lemma exParticipants_full : allParticipants exRoster exExpenses = ["A", "B", "C", "D"] := by
  decide

lemma exParticipants_filtered :
    allParticipants (exRoster.filter (fun u => u != "A")) exExpenses
      = ["B", "C", "D", "A"] := by
  decide

lemma exAppears : ∃ e ∈ exExpenses, appearsInExpense "A" e :=
  ⟨⟨"e1", "lunch", 60, "C", false, some ["A", "B", "C"]⟩,
    by decide, Or.inr (by decide)⟩

lemma exTotals_balances :
    (totalsOf exExpenses exRoster).balances "A" = -30 ∧
    (totalsOf exExpenses exRoster).balances "B" = -30 ∧
    (totalsOf exExpenses exRoster).balances "C" = 40 ∧
    (totalsOf exExpenses exRoster).balances "D" = 20 := by
  refine ⟨?_, ?_, ?_, ?_⟩
  all_goals
    unfold totalsOf
    rw [exParticipants_full]
    simp only [exExpenses, List.foldl_cons, List.foldl_nil, applyExpense, beneficiariesOf]
    norm_num +decide [Function.update_apply]

lemma exTotals_filtered_eq :
    totalsOf exExpenses (exRoster.filter (fun u => u != "A")) = totalsOf exExpenses exRoster := by
  unfold totalsOf
  apply totalsFold_congr
  intro e he
  have hall : ∀ x ∈ exExpenses, validExpense x = true := by decide
  exact ⟨hall e he, mem_allParticipants_filter exAppears,
    fun b _ => mem_allParticipants_filter exAppears⟩

lemma exDebtData_full :
    debtDataOf exExpenses exRoster = [("A", -30), ("B", -30), ("C", 40), ("D", 20)] := by
  obtain ⟨hA, hB, hC, hD⟩ := exTotals_balances
  simp [debtDataOf, exParticipants_full, hA, hB, hC, hD]

lemma exDebtData_filtered :
    debtDataOf exExpenses (exRoster.filter (fun u => u != "A"))
      = [("B", -30), ("C", 40), ("D", 20), ("A", -30)] := by
  obtain ⟨hA, hB, hC, hD⟩ := exTotals_balances
  simp [debtDataOf, exParticipants_filtered, exTotals_filtered_eq, hA, hB, hC, hD]

lemma exDebtors_full : debtorsOf exExpenses exRoster = [("A", -30), ("B", -30)] := by
  unfold debtorsOf
  rw [exDebtData_full]
  decide

lemma exCreditors_full : creditorsOf exExpenses exRoster = [("C", 40), ("D", 20)] := by
  unfold creditorsOf
  rw [exDebtData_full]
  decide

lemma exDebtors_filtered :
    debtorsOf exExpenses (exRoster.filter (fun u => u != "A")) = [("B", -30), ("A", -30)] := by
  unfold debtorsOf
  rw [exDebtData_filtered]
  decide

lemma exCreditors_filtered :
    creditorsOf exExpenses (exRoster.filter (fun u => u != "A")) = [("C", 40), ("D", 20)] := by
  unfold creditorsOf
  rw [exDebtData_filtered]
  decide

lemma exFirstTransfer_full :
    (suggestionsOf exExpenses exRoster).head? =
      some { from_ := "A", to_ := "C", amount := 30 } := by
  unfold suggestionsOf
  rw [exDebtors_full, exCreditors_full]
  show (greedyLoop (3 + 1) [("A", -30), ("B", -30)] [("C", 40), ("D", 20)]).head? = _
  rw [greedyLoop_cons_cons]
  have hamt : min |(-30 : ℚ)| 40 = 30 := by
    rw [abs_of_nonpos (by norm_num : (-30 : ℚ) ≤ 0)]
    norm_num
  rw [hamt, if_pos (by norm_num : (1 : ℚ) < 30)]
  have hround : jsRound 30 = 30 := by
    norm_num [jsRound]
  rw [hround]
  rfl

lemma exFirstTransfer_filtered :
    (suggestionsOf exExpenses (exRoster.filter (fun u => u != "A"))).head? =
      some { from_ := "B", to_ := "C", amount := 30 } := by
  unfold suggestionsOf
  rw [exDebtors_filtered, exCreditors_filtered]
  show (greedyLoop (3 + 1) [("B", -30), ("A", -30)] [("C", 40), ("D", 20)]).head? = _
  rw [greedyLoop_cons_cons]
  have hamt : min |(-30 : ℚ)| 40 = 30 := by
    rw [abs_of_nonpos (by norm_num : (-30 : ℚ) ≤ 0)]
    norm_num
  rw [hamt, if_pos (by norm_num : (1 : ℚ) < 30)]
  have hround : jsRound 30 = 30 := by
    norm_num [jsRound]
  rw [hround]
  rfl

/-- Claim C3, counterexample: with expenses `exExpenses` (all carrying
well-formed `splitBy` arrays) and roster `[A, B, C, D]`, removing `A`
(who appears as a beneficiary) changes the transfer plan — the first
transfer is `A → C : 30` with the full roster but `B → C : 30` without
it, because debtors `A` and `B` tie at balance `-30` and the stable sort
breaks the tie by participant order, which changes. -/
theorem claim_C3_counterexample :
    (settle exExpenses (exRoster.filter (fun u => u != "A"))).suggestions ≠
      (settle exExpenses exRoster).suggestions := by
  intro heq
  have h1 := exFirstTransfer_filtered
  have h2 := exFirstTransfer_full
  have heq2 : suggestionsOf exExpenses (exRoster.filter (fun u => u != "A"))
      = suggestionsOf exExpenses exRoster := heq
  rw [heq2, h2] at h1
  simp at h1

/-- Witness for C3 (amended): the counterexample's own inputs satisfy
the hypotheses, and the theorem's conclusions hold there. -/
theorem claim_C3_ghost_participant_inclusion_witness :
    (∀ e ∈ exExpenses, validExpense e = true) ∧
    (∃ e ∈ exExpenses, e.payer = "A" ∨ "A" ∈ e.splitBy.getD []) ∧
    ((∀ x, x ∈ (settle exExpenses (exRoster.filter (fun u => u != "A"))).participants ↔
       x ∈ (settle exExpenses exRoster).participants) ∧
     "A" ∈ (settle exExpenses (exRoster.filter (fun u => u != "A"))).participants ∧
     (settle exExpenses (exRoster.filter (fun u => u != "A"))).balances
       = (settle exExpenses exRoster).balances ∧
     (settle exExpenses (exRoster.filter (fun u => u != "A"))).paidTotals
       = (settle exExpenses exRoster).paidTotals) :=
  ⟨by decide, by decide,
   claim_C3_ghost_participant_inclusion exExpenses exRoster "A" (by decide) (by decide)⟩

lemma settle_nil_suggestions_AB :
    (settle ([] : List ExpenseItem) ["Alice", "Bob"]).suggestions = [] := by
  decide

/-- Claim C5: appending a private expense (beneficiaries exactly
`[payer]`) to any list of well-formed expenses increases the payer's paid
total by its cost and leaves every balance and the whole transfer plan
unchanged; concretely, with roster `[Alice, Bob]` and single expense
`{cost: 100, payer: Alice, splitBy: [Alice]}` the balances are zero, the
transfers empty, and `paidTotals.Alice = 100`. -/
theorem claim_C5_private_expense_neutrality (es : List ExpenseItem) (us : List String)
    (p : ExpenseItem) (hval : ∀ e ∈ es, validExpense e = true)
    (hsp : p.splitBy = some [p.payer]) (hpp : p.payer ≠ "") :
    (settle (es ++ [p]) us).paidTotals p.payer
        = (settle es us).paidTotals p.payer + p.cost ∧
      (settle (es ++ [p]) us).balances = (settle es us).balances ∧
      (settle (es ++ [p]) us).suggestions = (settle es us).suggestions ∧
      (settle [privateExpense] ["Alice", "Bob"]).balances "Alice" = 0 ∧
      (settle [privateExpense] ["Alice", "Bob"]).balances "Bob" = 0 ∧
      (settle [privateExpense] ["Alice", "Bob"]).suggestions = [] ∧
      (settle [privateExpense] ["Alice", "Bob"]).paidTotals "Alice" = 100 := by
  obtain ⟨h1, _, h3, h4⟩ := settle_append_private es us p hval hsp hpp
  obtain ⟨g1, _, g3, g4⟩ := settle_append_private [] ["Alice", "Bob"] privateExpense
    (fun e he => absurd he (List.not_mem_nil e)) rfl (by decide)
  rw [List.nil_append] at g1 g3 g4
  refine ⟨h1, h3, h4, ?_, ?_, ?_, ?_⟩
  · rw [g3]
    rfl
  · rw [g3]
    rfl
  · rw [g4]
    exact settle_nil_suggestions_AB
  · show (settle [privateExpense] ["Alice", "Bob"]).paidTotals privateExpense.payer = 100
    rw [g1]
    show (0 : ℚ) + 100 = 100
    norm_num

/-- Witness for C5: the claim's own concrete scenario (adding the private
expense to the empty list over roster `[Alice, Bob]`). -/
theorem claim_C5_private_expense_neutrality_witness :
    (∀ e ∈ ([] : List ExpenseItem), validExpense e = true) ∧
    privateExpense.splitBy = some [privateExpense.payer] ∧
    privateExpense.payer ≠ "" ∧
    (settle ([] ++ [privateExpense]) ["Alice", "Bob"]).paidTotals privateExpense.payer
        = (settle ([] : List ExpenseItem) ["Alice", "Bob"]).paidTotals privateExpense.payer
          + privateExpense.cost ∧
    (settle ([] ++ [privateExpense]) ["Alice", "Bob"]).balances
        = (settle ([] : List ExpenseItem) ["Alice", "Bob"]).balances ∧
    (settle ([] ++ [privateExpense]) ["Alice", "Bob"]).suggestions
        = (settle ([] : List ExpenseItem) ["Alice", "Bob"]).suggestions ∧
    (settle [privateExpense] ["Alice", "Bob"]).balances "Alice" = 0 ∧
    (settle [privateExpense] ["Alice", "Bob"]).balances "Bob" = 0 ∧
    (settle [privateExpense] ["Alice", "Bob"]).suggestions = [] ∧
    (settle [privateExpense] ["Alice", "Bob"]).paidTotals "Alice" = 100 := by
  have h := claim_C5_private_expense_neutrality [] ["Alice", "Bob"] privateExpense
    (fun e he => absurd he (List.not_mem_nil e)) rfl (by decide)
  exact ⟨fun e he => absurd he (List.not_mem_nil e), rfl, by decide,
    h.1, h.2.1, h.2.2.1, h.2.2.2.1, h.2.2.2.2.1, h.2.2.2.2.2.1, h.2.2.2.2.2.2⟩

/-- Claim C2, counterexample: a legacy shared expense stored while the
roster is `["Alice", "Bob"]` is migrated to `splitBy = ["Me"]`
(the `DEFAULT_TRIP_USERS` constant), not to the current roster. -/
theorem claim_C2_counterexample :
    (migrateExpense ⟨"1", "dinner", 100, "Alice", true, none⟩).splitBy = some ["Me"] ∧
      some ["Me"] ≠ some ["Alice", "Bob"] := by
  constructor
  · rfl
  · decide

/-- Claim C2, amended: for every stored expense lacking a usable `splitBy`
(absent/non-array, i.e. `none`, or empty), the on-read migration produces
an in-memory expense whose `splitBy` is the fixed default roster constant
`DEFAULT_TRIP_USERS = ["Me"]` when `isShared` is true — not the current
roster — and `[payer]` (with a falsy payer defaulted to `"Me"`) otherwise. -/
theorem claim_C2_migration_fallback (item : ExpenseItem)
    (h : item.splitBy = none ∨ item.splitBy = some []) :
    (migrateExpense item).splitBy =
      some (if item.isShared then DEFAULT_TRIP_USERS
        else [if item.payer = "" then "Me" else item.payer]) := by
  by_cases hs : item.isShared
  · rcases h with h | h
    · simp [migrateExpense, h, hs]
    · simp [migrateExpense, h, hs]
  · rcases h with h | h
    · simp [migrateExpense, h, hs]
    · simp [migrateExpense, h, hs]

/-- Witness for C2 (amended): a concrete legacy private expense. -/
theorem claim_C2_migration_fallback_witness :
    ((⟨"1", "bus", 5, "Bob", false, none⟩ : ExpenseItem).splitBy = none ∨
      (⟨"1", "bus", 5, "Bob", false, none⟩ : ExpenseItem).splitBy = some []) ∧
    (migrateExpense ⟨"1", "bus", 5, "Bob", false, none⟩).splitBy =
      some (if (⟨"1", "bus", 5, "Bob", false, none⟩ : ExpenseItem).isShared
        then DEFAULT_TRIP_USERS
        else [if (⟨"1", "bus", 5, "Bob", false, none⟩ : ExpenseItem).payer = ""
          then "Me" else (⟨"1", "bus", 5, "Bob", false, none⟩ : ExpenseItem).payer]) :=
  ⟨Or.inl rfl, claim_C2_migration_fallback _ (Or.inl rfl)⟩

/-- Claim C6, counterexample: an expense that already carries the
non-empty `splitBy` array `["Alice"]` but whose stored `payer` is the
falsy string `""` is not returned unchanged — migration rewrites its
payer to `"Me"`. -/
theorem claim_C6_counterexample :
    migrateExpense ⟨"1", "taxi", 5, "", false, some ["Alice"]⟩ ≠
      ⟨"1", "taxi", 5, "", false, some ["Alice"]⟩ ∧
    (⟨"1", "taxi", 5, "", false, some ["Alice"]⟩ : ExpenseItem).splitBy = some ["Alice"] := by
  constructor
  · intro h
    have h2 := congrArg ExpenseItem.payer h
    simp [migrateExpense] at h2
  · rfl

/-- Claim C6, amended: migration is a no-op on every expense carrying a
non-empty `splitBy` array *and* a truthy payer (the stored `payer || 'Me'`
defaulting rewrites a falsy payer even when `splitBy` is usable), and
migrating twice always yields the same result as migrating once. -/
theorem claim_C6_idempotent_migration :
    (∀ item : ExpenseItem, validExpense item = true → migrateExpense item = item) ∧
    (∀ item : ExpenseItem, migrateExpense (migrateExpense item) = migrateExpense item) :=
  ⟨fun item h => migrateExpense_of_valid item h,
   fun item => migrateExpense_of_valid _ (validExpense_migrateExpense item)⟩

/-- Witness for C6 (amended): a concrete well-formed expense is left
untouched, and a concrete legacy expense migrates idempotently. -/
theorem claim_C6_idempotent_migration_witness :
    validExpense ⟨"1", "bbq", 40, "Alice", false, some ["Alice", "Bob"]⟩ = true ∧
    migrateExpense ⟨"1", "bbq", 40, "Alice", false, some ["Alice", "Bob"]⟩ =
      ⟨"1", "bbq", 40, "Alice", false, some ["Alice", "Bob"]⟩ ∧
    migrateExpense (migrateExpense ⟨"2", "bus", 3, "Me", true, none⟩) =
      migrateExpense ⟨"2", "bus", 3, "Me", true, none⟩ :=
  ⟨by decide,
   claim_C6_idempotent_migration.1 _ (by decide),
   claim_C6_idempotent_migration.2 _⟩

/-! Claim theorems about the Sync Coordinator handlers (C7, C8, C9). -/

/-- Claim C7: `handleExpensesChange` applies the optimistic local update
immediately and unconditionally — the resulting in-memory list does not
depend on the connection state; an add whose id is already present leaves
the list unchanged; a fresh add appends the finalized item; a delete
filters by id. -/
theorem claim_C7_optimistic_expense_update (conn : Bool) (us : List String)
    (prev : List ExpenseItem) (item : ExpenseItem) :
    ((handleExpensesChange conn us prev ExpenseAction.add item).expenses =
      (handleExpensesChange false us prev ExpenseAction.add item).expenses) ∧
    ((∃ e ∈ prev, e.id = item.id) →
      (handleExpensesChange conn us prev ExpenseAction.add item).expenses = prev) ∧
    ((∀ e ∈ prev, e.id ≠ item.id) →
      (handleExpensesChange conn us prev ExpenseAction.add item).expenses =
        prev ++ [finalizeExpense us item]) ∧
    ((handleExpensesChange conn us prev ExpenseAction.delete item).expenses =
      prev.filter (fun e => e.id != item.id)) := by
  have hid : (finalizeExpense us item).id = item.id := rfl
  refine ⟨rfl, ?_, ?_, rfl⟩
  · rintro ⟨e, he, heq⟩
    have hany : prev.any (fun e => e.id == (finalizeExpense us item).id) = true :=
      List.any_eq_true.mpr ⟨e, he, by simp [hid, heq]⟩
    simp [handleExpensesChange, hany]
  · intro hall
    have hany : prev.any (fun e => e.id == (finalizeExpense us item).id) = false := by
      rw [Bool.eq_false_iff]
      intro hc
      obtain ⟨e, he, heq⟩ := List.any_eq_true.mp hc
      exact hall e he (by simpa [hid] using heq)
    simp [handleExpensesChange, hany]

/-- Witness for C7: deduplication at a concrete already-present id. -/
theorem claim_C7_optimistic_expense_update_witness :
    (∃ e ∈ [(⟨"7", "bbq", 40, "Alice", false, some ["Alice"]⟩ : ExpenseItem)],
      e.id = (⟨"7", "soup", 9, "Bob", true, none⟩ : ExpenseItem).id) ∧
    (handleExpensesChange true ["Alice", "Bob"]
        [⟨"7", "bbq", 40, "Alice", false, some ["Alice"]⟩]
        ExpenseAction.add ⟨"7", "soup", 9, "Bob", true, none⟩).expenses =
      [⟨"7", "bbq", 40, "Alice", false, some ["Alice"]⟩] :=
  ⟨⟨_, List.mem_singleton.mpr rfl, rfl⟩,
   (claim_C7_optimistic_expense_update true ["Alice", "Bob"] _ _).2.1
     ⟨_, List.mem_singleton.mpr rfl, rfl⟩⟩

/-! Lemmas about the stable sort and the greedy sweep. -/

lemma mem_insertSorted {le : α → α → Bool} {x y : α} {l : List α} :
    y ∈ insertSorted le x l ↔ y = x ∨ y ∈ l := by
  induction l with
  | nil => simp [insertSorted]
  | cons a t ih =>
    by_cases h : le x a
    · simp [insertSorted, if_pos h]
    · simp only [insertSorted, if_neg h, List.mem_cons, ih]
      tauto

lemma length_insertSorted (le : α → α → Bool) (x : α) (l : List α) :
    (insertSorted le x l).length = l.length + 1 := by
  induction l with
  | nil => rfl
  | cons a t ih =>
    by_cases h : le x a
    · simp [insertSorted, if_pos h]
    · simp [insertSorted, if_neg h, ih]

lemma mem_stableSortBy {le : α → α → Bool} {y : α} {l : List α} :
    y ∈ stableSortBy le l ↔ y ∈ l := by
  induction l with
  | nil => simp [stableSortBy]
  | cons a t ih =>
    simp [stableSortBy, mem_insertSorted, ih]

lemma length_stableSortBy (le : α → α → Bool) (l : List α) :
    (stableSortBy le l).length = l.length := by
  induction l with
  | nil => rfl
  | cons a t ih =>
    simp [stableSortBy, length_insertSorted, ih]

/-- Rounding of transfer amounts commutes out of the sweep: the loop's
emitted transfers are the exact-amount transfers with `Math.round` applied
pointwise, because the working-balance decrements always use the
unrounded amount. -/
lemma greedyLoop_eq_map_exact (f : Nat) :
    ∀ d c : List (String × ℚ),
      greedyLoop f d c = (greedyLoopExact f d c).map
        (fun t => ⟨t.from_, t.to_, jsRound t.amount⟩) := by
  induction f with
  | zero => intro d c; rfl
  | succ n ih =>
    intro d c
    rcases d with _ | ⟨⟨dn, db⟩, ds⟩
    · rfl
    rcases c with _ | ⟨⟨cn, cb⟩, cs⟩
    · rfl
    simp only [greedyLoop, greedyLoopExact, List.map_append, ih]
    congr 1
    split
    · simp
    · simp

/-- Arithmetic facts about one sweep step on a debtor balance `db ≤ -1`
and a creditor balance `cb ≥ 1`: the settled amount is at least 1, the
debtor residual stays nonpositive, the creditor residual stays
nonnegative, and at least one residual drops below 1 (so at least one
pointer advances). -/
lemma greedy_step_facts {db cb : ℚ} (hdb : db ≤ -1) (hcb : 1 ≤ cb) :
    1 ≤ min |db| cb ∧ db + min |db| cb ≤ 0 ∧ 0 ≤ cb - min |db| cb ∧
      (|db + min |db| cb| < 1 ∨ cb - min |db| cb < 1) := by
  have habs : |db| = -db := abs_of_nonpos (by linarith)
  rw [habs]
  refine ⟨le_min (by linarith) hcb, ?_, ?_, ?_⟩
  · linarith [min_le_left (-db) cb]
  · linarith [min_le_right (-db) cb]
  · rcases min_choice (-db) cb with h | h
    · rw [h]
      left
      simp
    · rw [h]
      right
      linarith

lemma greedyLoop_length_bound (f : Nat) :
    ∀ d c : List (String × ℚ), (∀ p ∈ d, p.2 ≤ -1) → (∀ p ∈ c, 1 ≤ p.2) →
      (greedyLoop f d c).length + 1 ≤ max 1 (d.length + c.length) := by
  induction f with
  | zero => intro d c _ _; simp [greedyLoop]
  | succ n ih =>
    intro d c hd hc
    rcases d with _ | ⟨⟨dn, db⟩, ds⟩
    · simp [greedyLoop]
    rcases c with _ | ⟨⟨cn, cb⟩, cs⟩
    · simp [greedyLoop]
    have hdb : db ≤ -1 := hd _ (List.mem_cons_self _ _)
    have hcb : 1 ≤ cb := hc _ (List.mem_cons_self _ _)
    obtain ⟨hamt1, hdb2, hcb2, hpop⟩ := greedy_step_facts hdb hcb
    have hds : ∀ p ∈ ds, p.2 ≤ -1 := fun p hp => hd p (List.mem_cons_of_mem _ hp)
    have hcs : ∀ p ∈ cs, 1 ≤ p.2 := fun p hp => hc p (List.mem_cons_of_mem _ hp)
    have hdkeep : ¬(|db + min |db| cb| < 1) →
        ∀ p ∈ ((dn, db + min |db| cb) :: ds), p.2 ≤ -1 := by
      intro hk p hp
      rcases List.mem_cons.mp hp with rfl | hp
      · have h1 : 1 ≤ |db + min |db| cb| := le_of_not_lt hk
        rw [abs_of_nonpos hdb2] at h1
        show db + min |db| cb ≤ -1
        linarith
      · exact hds p hp
    have hckeep : ¬(cb - min |db| cb < 1) →
        ∀ p ∈ ((cn, cb - min |db| cb) :: cs), 1 ≤ p.2 := by
      intro hk p hp
      rcases List.mem_cons.mp hp with rfl | hp
      · exact le_of_not_lt hk
      · exact hcs p hp
    by_cases hdpop : |db + min |db| cb| < 1 <;> by_cases hcpop : cb - min |db| cb < 1
    · have hrec := ih ds cs hds hcs
      simp only [greedyLoop, if_pos hdpop, if_pos hcpop, List.length_append,
        List.length_cons]
      have hsug : (if 1 < min |db| cb then
          [({ from_ := dn, to_ := cn, amount := jsRound (min |db| cb) } : Transfer)]
        else []).length ≤ 1 := by
        split
        · simp
        · simp
      omega
    · have hrec := ih ds ((cn, cb - min |db| cb) :: cs) hds (hckeep hcpop)
      simp only [greedyLoop, if_pos hdpop, if_neg hcpop, List.length_append,
        List.length_cons]
      have hsug : (if 1 < min |db| cb then
          [({ from_ := dn, to_ := cn, amount := jsRound (min |db| cb) } : Transfer)]
        else []).length ≤ 1 := by
        split
        · simp
        · simp
      simp only [List.length_cons] at hrec
      omega
    · have hrec := ih ((dn, db + min |db| cb) :: ds) cs (hdkeep hdpop) hcs
      simp only [greedyLoop, if_neg hdpop, if_pos hcpop, List.length_append,
        List.length_cons]
      have hsug : (if 1 < min |db| cb then
          [({ from_ := dn, to_ := cn, amount := jsRound (min |db| cb) } : Transfer)]
        else []).length ≤ 1 := by
        split
        · simp
        · simp
      simp only [List.length_cons] at hrec
      omega
    · rcases hpop with h | h
      · exact absurd h hdpop
      · exact absurd h hcpop

/-- The sweep is fuel-insensitive above `debtors.length + creditors.length`:
with the filter invariants, every step drops at least one list element, so
any fuel at least the total length yields the same transfers — i.e. the
JS `while` loop terminates after at most that many iterations. -/
lemma greedyLoop_fuel_stable (f1 : Nat) :
    ∀ (f2 : Nat) (d c : List (String × ℚ)),
      (∀ p ∈ d, p.2 ≤ -1) → (∀ p ∈ c, 1 ≤ p.2) →
      d.length + c.length ≤ f1 → d.length + c.length ≤ f2 →
      greedyLoop f1 d c = greedyLoop f2 d c := by
  induction f1 with
  | zero =>
    intro f2 d c _ _ h1 _
    have hd : d = [] := List.length_eq_zero.mp (by omega)
    subst hd
    rcases f2 with _ | f2
    · rfl
    · rfl
  | succ n ih =>
    intro f2 d c hd hc h1 h2
    rcases d with _ | ⟨⟨dn, db⟩, ds⟩
    · rcases f2 with _ | f2
      · rfl
      · rfl
    rcases c with _ | ⟨⟨cn, cb⟩, cs⟩
    · rcases f2 with _ | f2
      · rfl
      · rfl
    rcases f2 with _ | f2
    · simp [List.length_cons] at h2
    have hdb : db ≤ -1 := hd _ (List.mem_cons_self _ _)
    have hcb : 1 ≤ cb := hc _ (List.mem_cons_self _ _)
    obtain ⟨hamt1, hdb2, hcb2, hpop⟩ := greedy_step_facts hdb hcb
    have hds : ∀ p ∈ ds, p.2 ≤ -1 := fun p hp => hd p (List.mem_cons_of_mem _ hp)
    have hcs : ∀ p ∈ cs, 1 ≤ p.2 := fun p hp => hc p (List.mem_cons_of_mem _ hp)
    have hdkeep : ¬(|db + min |db| cb| < 1) →
        ∀ p ∈ ((dn, db + min |db| cb) :: ds), p.2 ≤ -1 := by
      intro hk p hp
      rcases List.mem_cons.mp hp with rfl | hp
      · have h1 : 1 ≤ |db + min |db| cb| := le_of_not_lt hk
        rw [abs_of_nonpos hdb2] at h1
        show db + min |db| cb ≤ -1
        linarith
      · exact hds p hp
    have hckeep : ¬(cb - min |db| cb < 1) →
        ∀ p ∈ ((cn, cb - min |db| cb) :: cs), 1 ≤ p.2 := by
      intro hk p hp
      rcases List.mem_cons.mp hp with rfl | hp
      · exact le_of_not_lt hk
      · exact hcs p hp
    simp only [List.length_cons] at h1 h2
    by_cases hdpop : |db + min |db| cb| < 1 <;> by_cases hcpop : cb - min |db| cb < 1
    · simp only [greedyLoop, if_pos hdpop, if_pos hcpop]
      rw [ih f2 ds cs hds hcs (by omega) (by omega)]
    · simp only [greedyLoop, if_pos hdpop, if_neg hcpop]
      rw [ih f2 ds ((cn, cb - min |db| cb) :: cs) hds (hckeep hcpop)
        (by simp only [List.length_cons]; omega) (by simp only [List.length_cons]; omega)]
    · simp only [greedyLoop, if_neg hdpop, if_pos hcpop]
      rw [ih f2 ((dn, db + min |db| cb) :: ds) cs (hdkeep hdpop) hcs
        (by simp only [List.length_cons]; omega) (by simp only [List.length_cons]; omega)]
    · rcases hpop with h | h
      · exact absurd h hdpop
      · exact absurd h hcpop

lemma debtorsOf_inv (es : List ExpenseItem) (us : List String) :
    ∀ p ∈ debtorsOf es us, p.2 ≤ -1 := by
  intro p hp
  have hmem := mem_stableSortBy.mp hp
  have hf := (List.mem_filter.mp hmem).2
  have := of_decide_eq_true hf
  linarith

lemma creditorsOf_inv (es : List ExpenseItem) (us : List String) :
    ∀ p ∈ creditorsOf es us, 1 ≤ p.2 := by
  intro p hp
  have hmem := mem_stableSortBy.mp hp
  have hf := (List.mem_filter.mp hmem).2
  have := of_decide_eq_true hf
  linarith

lemma length_filter_map_pair (l : List String) (g : String → ℚ) (q : ℚ → Bool) :
    ((l.map (fun n => (n, g n))).filter (fun p => q p.2)).length
      = (l.filter (fun n => q (g n))).length := by
  induction l with
  | nil => rfl
  | cons a t ih =>
    simp only [List.map_cons, List.filter_cons]
    cases h : q (g a)
    · simp [h, ih]
    · simp [h, ih]

lemma length_filter_disjoint_le (l : List String) (p q r : String → Bool)
    (hp : ∀ x, p x = true → r x = true) (hq : ∀ x, q x = true → r x = true)
    (hpq : ∀ x, ¬(p x = true ∧ q x = true)) :
    (l.filter p).length + (l.filter q).length ≤ (l.filter r).length := by
  rw [← List.countP_eq_length_filter, ← List.countP_eq_length_filter,
    ← List.countP_eq_length_filter]
  induction l with
  | nil => simp
  | cons a t ih =>
    simp only [List.countP_cons]
    cases hpa : p a
    · cases hqa : q a
      · cases hra : r a
        · simp only [hpa, hqa, hra, if_false, Bool.false_eq_true, add_zero]
          omega
        · simp only [hpa, hqa, hra, if_false, if_true, Bool.false_eq_true, add_zero]
          omega
      · have hra := hq a hqa
        simp only [hpa, hqa, hra, if_false, if_true, Bool.false_eq_true, add_zero]
        omega
    · have hra := hp a hpa
      have hqa : q a = false := by
        cases hqa : q a
        · rfl
        · exact absurd ⟨hpa, hqa⟩ (hpq a)
      simp only [hpa, hqa, hra, if_false, if_true, Bool.false_eq_true, add_zero]
      omega

lemma debtors_creditors_count_le (es : List ExpenseItem) (us : List String) :
    (debtorsOf es us).length + (creditorsOf es us).length ≤ nontrivialCount es us := by
  unfold debtorsOf creditorsOf nontrivialCount
  rw [length_stableSortBy, length_stableSortBy]
  unfold debtDataOf
  rw [length_filter_map_pair _ _ (fun x => decide (x < -1)),
    length_filter_map_pair _ _ (fun x => decide (1 < x))]
  apply length_filter_disjoint_le
  · intro x hx
    have := of_decide_eq_true hx
    simp only [Bool.or_eq_true, decide_eq_true_eq]
    left
    linarith
  · intro x hx
    have := of_decide_eq_true hx
    simp only [Bool.or_eq_true, decide_eq_true_eq]
    right
    linarith
  · intro x ⟨hx1, hx2⟩
    have h1 := of_decide_eq_true hx1
    have h2 := of_decide_eq_true hx2
    linarith

/-- Claim C4: the number of transfers produced by the sweep is at most
(number of participants with balance outside `(-1, 1)`) minus 1, and the
sweep terminates — any fuel at least `debtors.length + creditors.length`
(in particular, arbitrarily more than the loop could consume) produces
the same transfer list. -/
theorem claim_C4_transfer_count_and_termination (es : List ExpenseItem) (us : List String) :
    (settle es us).suggestions.length ≤ nontrivialCount es us - 1 ∧
    ∀ extra : Nat,
      greedyLoop ((debtorsOf es us).length + (creditorsOf es us).length + extra)
        (debtorsOf es us) (creditorsOf es us) = (settle es us).suggestions := by
  have hdinv := debtorsOf_inv es us
  have hcinv := creditorsOf_inv es us
  constructor
  · have hb := greedyLoop_length_bound
      ((debtorsOf es us).length + (creditorsOf es us).length) _ _ hdinv hcinv
    have hcount := debtors_creditors_count_le es us
    show (suggestionsOf es us).length ≤ _
    unfold suggestionsOf
    omega
  · intro extra
    show _ = suggestionsOf es us
    unfold suggestionsOf
    exact greedyLoop_fuel_stable _ _ _ _ hdinv hcinv (by omega) (by omega)

/-- Claim C10: every recorded transfer amount is the rounding (to an
integer number of currency units) of the exact transferred amount
`min(|debtor.balance|, creditor.balance)`, while the sweep's internal
decrements use the unrounded value — the transfer list equals the
exact-amount transfer list with rounding applied pointwise, so rounding
one transfer never alters the amounts of subsequent transfers. -/
theorem claim_C10_rounded_transfer_amounts (es : List ExpenseItem) (us : List String) :
    (settle es us).suggestions =
      (suggestionsExactOf es us).map (fun t => ⟨t.from_, t.to_, jsRound t.amount⟩) :=
  greedyLoop_eq_map_exact _ _ _

/-- Claim C8, counterexample: `handleRemoveTripUser` performs no
whitespace check — removing the all-whitespace name `" "` while
cloud-connected issues a remote `removeUser " "` operation, a side
effect the claim rules out. -/
theorem claim_C8_counterexample :
    jsTrim " " = "" ∧ (handleRemoveTripUser true ["Me"] " ").remoteOps ≠ [] := by
  constructor
  · rfl
  · intro h
    simp [handleRemoveTripUser] at h

/-- Claim C8, amended: `handleAddTripUser` rejects every
whitespace-only name with no side effect in both connection states, but
`handleRemoveTripUser` does not validate the name: when connected it
always issues the remote removal (even for a whitespace name), and in
local-only mode it filters the roster by name, which is a no-op exactly
when the name is absent from the roster. -/
theorem claim_C8_roster_name_validation :
    (∀ (conn : Bool) (us : List String) (nm : String), jsTrim nm = "" →
      handleAddTripUser conn us nm = ⟨us, []⟩) ∧
    (∀ (us : List String) (nm : String),
      handleRemoveTripUser true us nm = ⟨us, [RemoteOp.removeUser nm]⟩) ∧
    (∀ (us : List String) (nm : String), nm ∉ us →
      handleRemoveTripUser false us nm = ⟨us, []⟩) := by
  refine ⟨?_, ?_, ?_⟩
  · intro conn us nm h
    simp [handleAddTripUser, h]
  · intro us nm
    simp [handleRemoveTripUser]
  · intro us nm h
    simp only [handleRemoveTripUser, Bool.false_eq_true, if_false]
    have : us.filter (fun u => u != nm) = us :=
      List.filter_eq_self.mpr (fun u hu => by
        simp only [bne_iff_ne, ne_eq]
        intro heq; exact h (heq ▸ hu))
    rw [this]

/-- Witness for C8 (amended): the whitespace rejection and the
absent-name local removal at concrete inputs. -/
theorem claim_C8_roster_name_validation_witness :
    jsTrim "  " = "" ∧
    handleAddTripUser false ["Me"] "  " = ⟨["Me"], []⟩ ∧
    ("Bob" ∉ (["Me"] : List String)) ∧
    handleRemoveTripUser false ["Me"] "Bob" = ⟨["Me"], []⟩ :=
  ⟨by decide,
   claim_C8_roster_name_validation.1 false ["Me"] "  " (by decide),
   by decide,
   claim_C8_roster_name_validation.2.2 ["Me"] "Bob" (by decide)⟩

/-- Claim C9: the guarded local-persistence effect never writes a
collection while cloud-connected, and in local-only mode writes exactly
when the collection is non-empty. -/
theorem claim_C9_local_persistence_guard (α : Type) (coll : List α) :
    (persistCollection true coll = none) ∧
    (coll = [] → persistCollection false coll = none) ∧
    (coll ≠ [] → persistCollection false coll = some coll) := by
  refine ⟨rfl, ?_, ?_⟩
  · intro h; subst h; rfl
  · intro h
    rcases coll with _ | ⟨x, xs⟩
    · exact absurd rfl h
    · simp [persistCollection]

/-- Witness for C9: a singleton itinerary-like collection is persisted in
local-only mode, the empty one is not. -/
theorem claim_C9_local_persistence_guard_witness :
    (([] : List Nat) = [] ∧ persistCollection false ([] : List Nat) = none) ∧
    (([7] : List Nat) ≠ [] ∧ persistCollection false [7] = some [7]) :=
  ⟨⟨rfl, (claim_C9_local_persistence_guard Nat []).2.1 rfl⟩,
   ⟨by decide, (claim_C9_local_persistence_guard Nat [7]).2.2 (by decide)⟩⟩

end SeoulTrip
